import Mathlib

/-!
Verification of sts10/gorilla against its specification.

The repository's `src/` holds `main.rs` and `website_scraper.rs`.  The
modules `mutation.rs`, `formatting.rs`, `yaml_parser.rs` and
`arguments.rs` are declared in `main.rs` but their sources are not
present; where a claim depends on them they are modelled from the
specification (each such definition carries a doc comment starting with
"Modelled from the spec:").  Everything else is translated directly from
the Rust sources.  Strings of the scraped-page pipeline are modelled as
`List Char`; strings of the mutation pipeline as `String`.
-/

set_option autoImplicit false

namespace Gorilla

/-! ### Whitespace and trimming (Rust `str::trim`, `char::is_whitespace`) -/

/-- Code points of the Unicode `White_Space` property, the set recognised
by Rust's `char::is_whitespace` (used by `str::trim` in
`website_scraper.rs` lines 23 and 26). -/
def whitespaceCodes : List Nat :=
  [0x9, 0xA, 0xB, 0xC, 0xD, 0x20, 0x85, 0xA0, 0x1680,
   0x2000, 0x2001, 0x2002, 0x2003, 0x2004, 0x2005, 0x2006, 0x2007,
   0x2008, 0x2009, 0x200A, 0x2028, 0x2029, 0x202F, 0x205F, 0x3000]

/-- Rust `char::is_whitespace`. -/
def isWhitespaceChar (c : Char) : Bool :=
  whitespaceCodes.contains c.toNat

/-- Leading-whitespace removal, the left half of Rust `str::trim`. -/
def trimLeftChars (l : List Char) : List Char :=
  l.dropWhile isWhitespaceChar

/-- Trailing-whitespace removal, the right half of Rust `str::trim`. -/
def trimRightChars (l : List Char) : List Char :=
  (l.reverse.dropWhile isWhitespaceChar).reverse

/-- Rust `str::trim`: remove leading and trailing whitespace. -/
def trimChars (l : List Char) : List Char :=
  trimRightChars (trimLeftChars l)

/-! ### Splitting on the space character (Rust `str::split(' ')`) -/

/-- Rust `str::split(' ')`: split at every `' '`, keeping empty chunks
(`"a  b"` gives `["a", "", "b"]`, `""` gives `[""]`). -/
def splitOnSpace : List Char → List (List Char)
  | [] => [[]]
  | c :: rest =>
    if c = ' ' then [] :: splitOnSpace rest
    else
      match splitOnSpace rest with
      | [] => [[c]]
      | w :: ws => (c :: w) :: ws

/-! ### The tag-stripping regex `<[^>]*>` (`website_scraper.rs` lines 16–19) -/

/-- Scan for the first `'>'`; `some rest` drops everything up to and
including it.  Used to model one match of the regex `<[^>]*>`, which,
starting at a `'<'`, always ends at the first `'>'` after it. -/
def dropThroughGt : List Char → Option (List Char)
  | [] => none
  | c :: rest => if c = '>' then some rest else dropThroughGt rest

theorem dropThroughGt_length :
    ∀ {l l' : List Char}, dropThroughGt l = some l' → l'.length < l.length := by
  intro l
  induction l with
  | nil => intro l' h; simp [dropThroughGt] at h
  | cons c rest ih =>
    intro l' h
    simp only [dropThroughGt] at h
    by_cases hc : c = '>'
    · simp [hc] at h
      subst h
      simp
    · simp [hc] at h
      exact Nat.lt_trans (ih h) (by simp)

/-- Fueled worker for `removeTags`; the fuel only bounds the recursion
depth (each step consumes at least one character, so fuel
`l.length` never runs out) and keeps the function structurally
recursive. -/
def removeTagsFuel : Nat → List Char → List Char
  | _, [] => []
  | 0, l => l
  | fuel + 1, c :: rest =>
    if c = '<' then
      match dropThroughGt rest with
      | some after => removeTagsFuel fuel after
      | none => c :: rest
    else c :: removeTagsFuel fuel rest

/-- `html_tag.replace_all(&page_body, "")` for `html_tag = <[^>]*>`
(`website_scraper.rs` lines 16–19): repeatedly delete the leftmost
maximal `<...>` span.  A match of `<[^>]*>` runs from a `'<'` to the
first `'>'` after it; a `'<'` with no later `'>'` matches nothing. -/
def removeTags (l : List Char) : List Char := removeTagsFuel l.length l

/-! ### The scraper crate as an abstract collaborator

`just_body_html_content` (`website_scraper.rs` lines 43–79) drives the
third-party `scraper` crate: it parses the document, removes every
`<script>` element (lines 44–63), parses the CSS selector `"body"`
(line 66), selects the first `<body>` element (line 72) and joins its
text nodes with `" "` (line 78).  The crate's behaviour is abstracted
into this structure; only the control flow of the Rust function itself
is modelled concretely. -/
structure Scraper (F E : Type) where
  /-- Lines 44–63: parse `all_html` and remove the `<script>` elements. -/
  stripScripts : List Char → F
  /-- Line 66: outcome of `Selector::parse("body")`; `none` is the `Err` case. -/
  bodySelector : Option Unit
  /-- Line 72: `fragment.select(&body_selector).next()`. -/
  selectBody : F → Option E
  /-- Line 78: `body.text().collect::<Vec<&str>>()`. -/
  textOf : E → List (List Char)

/-- `website_scraper.rs` lines 43–79 (`just_body_html_content`). -/
def just_body_html_content {F E : Type} (S : Scraper F E) (all_html : List Char) :
    List Char :=
  let fragment := S.stripScripts all_html
  match S.bodySelector with
  | none => all_html
  | some _ =>
    match S.selectBody fragment with
    | none => all_html
    | some body => List.intercalate [' '] (S.textOf body)

/-! ### `extract_words` (`website_scraper.rs` lines 11–36) -/

/-- Loop body of `website_scraper.rs` lines 25–31: trim the word and
push it unless it is already present (`words.contains(&w)`). -/
def pushWord (ws : List (List Char)) (w : List Char) : List (List Char) :=
  let w2 := trimChars w
  if w2 ∈ ws then ws else ws ++ [w2]

/-- Loop body of `website_scraper.rs` lines 18–33: trim the line, skip
it when empty, otherwise split it on `' '` again and push each word. -/
def pushLine (ws : List (List Char)) (line : List Char) : List (List Char) :=
  let trimmed_line := trimChars line
  if trimmed_line = [] then ws
  else (splitOnSpace trimmed_line).foldl pushWord ws

/-- `website_scraper.rs` lines 11–36 (`extract_words`). -/
def extract_words {F E : Type} (S : Scraper F E) (page_body : List Char) :
    List (List Char) :=
  let body := just_body_html_content S page_body
  (splitOnSpace (removeTags body)).foldl pushLine []

/-! ### The mutation pipeline

`mutation.rs` is declared in `main.rs` (line 2) but its source is not
in `src/`; `Mutation`, `MutationSet.perform` and
`MutationResult.save_to_file` are modelled from the specification
(§3, §4.3, §4.4). -/

/-- Modelled from the spec: a mutation rule (`mutation.rs` is missing).
Spec §4.3: "`apply(word) -> zero, one, or many candidate strings` — a
rule may filter (0), transform 1:1, or branch 1:N".  The rule kinds
themselves are irrelevant to the claims, so a rule is modelled by its
`apply` function. -/
structure Mutation where
  apply : String → List String

/-- `MutationSet` (spec §3): "ordered sequence of Mutation". -/
structure MutationSet where
  mutations : List Mutation

/-- `MutationResult` (spec §3): "{original_word: string, mutated_words:
ordered sequence of string, duplicates permitted}". -/
structure MutationResult where
  original_word : String
  mutated_words : List String
deriving DecidableEq

/-- Modelled from the spec: the strings one `perform` call produces for
one word (`mutation.rs` is missing).  Spec §4.4: "seed a working set =
{word}; for each Mutation in declared order, apply it to every string
currently in the working set and replace the working set with the
concatenation of all outputs"; "An empty MutationSet appends nothing." -/
def MutationSet.pipeline_output (ms : MutationSet) (word : String) : List String :=
  if ms.mutations.isEmpty then []
  else ms.mutations.foldl (fun acc m => acc.flatMap m.apply) [word]

/-- Modelled from the spec: `MutationSet::perform` (`mutation.rs` is
missing).  Spec §4.4: "mutates only `result.mutated_words`"; "after the
final rule, append the working set, in generation order, to
`result.mutated_words`". -/
def MutationSet.perform (ms : MutationSet) (r : MutationResult) (word : String) :
    MutationResult :=
  { r with mutated_words := r.mutated_words ++ ms.pipeline_output word }

/-- Modelled from the spec: `MutationResult::save_to_file` (`mutation.rs`
is missing).  Spec §4.4: "appends each string in `mutated_words` as one
line, preserving order, to an already-open append-only sink; write
failure propagates to the caller, never swallowed."  The sink and its
line-write operation are abstract: `wr s w` appends string `w` as one
line to sink state `s`, or fails. -/
def MutationResult.save_to_file {σ ε : Type} (wr : σ → String → Except ε σ)
    (r : MutationResult) (s : σ) : Except ε σ :=
  r.mutated_words.foldlM wr s

/-- The always-succeeding line writer for a sink modelled as the list of
its lines: writing string `w` appends exactly the one line `w`. -/
def lineWriter (s : List String) (w : String) : Except Unit (List String) :=
  .ok (s ++ [w])

/-! ### The orchestrator state (`main.rs` lines 26–33) -/

/-- `u32` modulus for the two counters of `struct Gorilla`. -/
def U32MOD : Nat := 2 ^ 32

/-- `main.rs` lines 26–33 (`struct Gorilla`), with the observable
output channels made explicit: `saved` is the line list of the output
file (`file_save`, success path), `printed` the sequence of words
written to stdout, and `seeds` the instrumentation trace of the words
fed to `mutate_word` (one entry per call, recorded where line 37
constructs the `MutationResult` for the word).  `program_args` is
reduced to the `file_save` presence flag; the `timer`/`one_line`
flags only alter console formatting around each printed word, never
which words are printed, and `start_time` feeds only the timer text. -/
structure Gorilla where
  mutation_sets : List MutationSet
  file_save : Bool
  mutation_counter : Nat
  word_counter : Nat
  saved : List String
  printed : List String
  seeds : List String

/-- `main.rs` lines 51–63: the per-mutated-word display/count loop body
(print the word when no output file is set, then bump
`mutation_counter`). -/
def innerEmit (h : Gorilla) (s : String) : Gorilla :=
  let h1 := if h.file_save then h else { h with printed := h.printed ++ [s] }
  { h1 with mutation_counter := (h1.mutation_counter + 1) % U32MOD }

/-- `main.rs` lines 44–64: one iteration of the `for mutation_set in
&self.mutation_sets` loop, threading the gorilla state and the single
`mutation_result` of the word.  Line 45 performs the set on the shared
result; lines 47–49 append `mutation_result.mutated_words` to the
output file when one is set (the success path of `save_to_file`);
lines 51–63 run the display/count loop. -/
def setStep (word : String) (st : Gorilla × MutationResult) (ms : MutationSet) :
    Gorilla × MutationResult :=
  let r := ms.perform st.2 word
  let g1 :=
    if st.1.file_save then { st.1 with saved := st.1.saved ++ r.mutated_words }
    else st.1
  let g2 := r.mutated_words.foldl innerEmit g1
  (g2, r)

/-- `main.rs` lines 36–65 (`Gorilla::mutate_word`): build one fresh
`MutationResult` for the word (lines 37–40), bump `word_counter`
(line 42), then run every configured mutation set over the same result
(lines 44–64). -/
def Gorilla.mutate_word (g : Gorilla) (word : String) : Gorilla :=
  let r0 : MutationResult := { original_word := word, mutated_words := [] }
  let g0 := { g with word_counter := (g.word_counter + 1) % U32MOD,
                     seeds := g.seeds ++ [word] }
  (g.mutation_sets.foldl (setStep word) (g0, r0)).1

/-- `main.rs` lines 114–125: the file-input branch feeds each line of
the seed file, in file order, to `mutate_word`. -/
def Gorilla.process_file_lines (g : Gorilla) (lines : List String) : Gorilla :=
  lines.foldl Gorilla.mutate_word g

/-! ### Derived descriptions of `mutate_word`'s behaviour -/

/-- The successive values of `mutation_result.mutated_words` consumed by
the loop of `mutate_word` (one entry per mutation set), starting from
accumulated contents `acc`: each `perform` call appends its set's
pipeline output to the shared result. -/
def consumed (acc : List String) : List MutationSet → String → List (List String)
  | [], _ => []
  | ms :: rest, word =>
    let acc2 := acc ++ ms.pipeline_output word
    acc2 :: consumed acc2 rest word

/-- The `MutationResult` snapshots consumed (saved and/or displayed) by
`mutate_word` for one seed word, one per configured mutation set, in
loop order. -/
def mutate_word_results (sets : List MutationSet) (word : String) :
    List MutationResult :=
  (consumed [] sets word).map (fun ws => { original_word := word, mutated_words := ws })

/-- All strings emitted (to the file or to stdout) by one `mutate_word`
call with the given mutation sets. -/
def outAll (sets : List MutationSet) (word : String) : List String :=
  (consumed [] sets word).flatten

/-- `n` successive `u32` increments (`(· + 1) % 2^32`) applied to a
counter. -/
def bumpN (mc : Nat) : Nat → Nat
  | 0 => mc
  | n + 1 => bumpN ((mc + 1) % U32MOD) n

/-! ### Pattern tokenizer and combinatorial generator

`formatting.rs` is declared in `main.rs` (line 3) but its source is not
in `src/`; the tokenizer (`tokenize_format_string`) and the generator
(`token_iterator`, spec §4.1–§4.2) are modelled from the
specification. -/

/-- A pattern token (spec §3): `Literal` or `CharClass` (an ordered,
finite set of candidate characters). -/
inductive Token where
  | literal (c : Char)
  | charClass (cs : List Char)
deriving DecidableEq

/-- Spec §4.1: parse failure, on an unterminated escape or an unknown
class identifier. -/
inductive ParseError where
  | unterminatedEscape
  | unknownClass (c : Char)
deriving DecidableEq

/-- The lowercase-letter character class (`%l`, spec §8). -/
def lowercaseChars : List Char :=
  ['a','b','c','d','e','f','g','h','i','j','k','l','m',
   'n','o','p','q','r','s','t','u','v','w','x','y','z']

/-- The uppercase-letter character class (spec §4.1). -/
def uppercaseChars : List Char :=
  ['A','B','C','D','E','F','G','H','I','J','K','L','M',
   'N','O','P','Q','R','S','T','U','V','W','X','Y','Z']

/-- The digit character class (`%d`, spec §8: "digit class [0-9]"). -/
def digitChars : List Char :=
  ['0','1','2','3','4','5','6','7','8','9']

/-- Modelled from the spec: "a fixed special-character set" (§4.1); the
spec does not list its members, so a representative fixed set is used. -/
def specialChars : List Char :=
  ['!','@','#','$','%','^','&','*']

/-- Modelled from the spec: the class identifier bytes (§4.1; §8 fixes
`d` = digits and `l` = lowercase; `u`/`s` are the uppercase/special
identifiers of this model). -/
def classOf : Char → Option (List Char)
  | 'l' => some lowercaseChars
  | 'u' => some uppercaseChars
  | 'd' => some digitChars
  | 's' => some specialChars
  | _ => none

/-- Modelled from the spec: `tokenize_format_string` (`formatting.rs` is
missing).  Spec §4.1: single left-to-right scan; the escape sigil `'%'`
(§8) followed by a class identifier yields a `CharClass` token; any
other byte is a `Literal` token; fails on an unterminated escape or an
unknown class identifier. -/
def tokenize_format_string : List Char → Except ParseError (List Token)
  | [] => .ok []
  | c :: rest =>
    if c = '%' then
      match rest with
      | [] => .error .unterminatedEscape
      | c2 :: rest2 =>
        match classOf c2 with
        | some cs => (tokenize_format_string rest2).map (Token.charClass cs :: ·)
        | none => .error (.unknownClass c2)
    else (tokenize_format_string rest).map (Token.literal c :: ·)

/-- The per-class bases of the mixed-radix counter: the cardinality of
each `CharClass` token, in token order. -/
def classSizes (tokens : List Token) : List Nat :=
  tokens.filterMap (fun t =>
    match t with
    | .literal _ => none
    | .charClass cs => some cs.length)

/-- Modelled from the spec: the generator state (`formatting.rs` is
missing).  Spec §3: "owns the Token sequence plus one cursor per
CharClass token, forming a mixed-radix counter"; `done` records
exhaustion (needed to stop after the single output when there is no
class cursor to carry, spec §4.2). -/
structure TokenIterator where
  tokens : List Token
  cursors : List Nat
  done : Bool
deriving DecidableEq

/-- `main.rs` line 129: `token_iterator(&tokens)` constructs a fresh
generator; every cursor starts at 0. -/
def token_iterator (tokens : List Token) : TokenIterator :=
  { tokens := tokens,
    cursors := (classSizes tokens).map (fun _ => 0),
    done := false }

/-- Render the current combination: each literal contributes its
character, each class the member selected by its cursor (spec §4.2). -/
def renderTokens : List Token → List Nat → List Char
  | [], _ => []
  | .literal c :: ts, cs => c :: renderTokens ts cs
  | .charClass _ :: _, [] => []
  | .charClass mem :: ts, i :: cs => mem.getD i ' ' :: renderTokens ts cs

/-- Odometer advance (spec §4.2): "the rightmost CharClass token's
cursor advances fastest; when a cursor wraps from its maximum to 0, the
class immediately to its left advances by one; generation ends when the
leftmost class would wrap."  `none` means exhaustion. -/
def advanceCursors : List Nat → List Nat → Option (List Nat)
  | [], [] => none
  | b :: bs, i :: is =>
    match advanceCursors bs is with
    | some is2 => some (i :: is2)
    | none => if i + 1 < b then some ((i + 1) :: is.map (fun _ => 0)) else none
  | _, _ => none

/-- Modelled from the spec: one generator step (spec §4.2 "produces a
lazy, finite sequence of fully rendered strings, one per generator
step").  Yields the current rendering and the advanced state; the
generator is `done` once the leftmost class would wrap. -/
def TokenIterator.next (g : TokenIterator) : Option (List Char × TokenIterator) :=
  if g.done then none
  else
    let word := renderTokens g.tokens g.cursors
    match advanceCursors (classSizes g.tokens) g.cursors with
    | some cs => some (word, { g with cursors := cs })
    | none => some (word, { g with done := true })

/-- Drive the generator for at most `n` steps, collecting the yielded
words (the `for word in ac_toks` loop of `main.rs` lines 140–142,
truncated by fuel `n`). -/
def TokenIterator.takeWords : Nat → TokenIterator → List (List Char)
  | 0, _ => []
  | n + 1, g =>
    match g.next with
    | none => []
    | some (w, g2) => w :: TokenIterator.takeWords n g2

/-- The largest `u64` value. -/
def U64MAX : Nat := 2 ^ 64 - 1

/-- `u64::saturating_mul`. -/
def satMul (a b : Nat) : Nat := min (a * b) U64MAX

/-- One step of `calculate_total`: a literal contributes factor 1, a
class multiplies (saturating) by its cardinality. -/
def totalStep (acc : Nat) : Token → Nat
  | .literal _ => acc
  | .charClass cs => satMul acc cs.length

/-- One step of the exact (unbounded) product of class cardinalities. -/
def trueStep (acc : Nat) : Token → Nat
  | .literal _ => acc
  | .charClass cs => acc * cs.length

/-- Modelled from the spec: `calculate_total` (`formatting.rs` is
missing).  Spec §4.2: "product of cardinalities of all CharClass tokens
(Literal tokens contribute factor 1); saturates at the maximum
representable value rather than wrapping on overflow". -/
def TokenIterator.calculate_total (g : TokenIterator) : Nat :=
  g.tokens.foldl totalStep 1

/-- The exact (unbounded) product of the class cardinalities of a token
sequence. -/
def trueTotal (tokens : List Token) : Nat :=
  tokens.foldl trueStep 1

/-- `main.rs` lines 127–143 (pattern-input branch, the `for word in
ac_toks` loop): feed every generated word to `mutate_word`.  The
generator run is fueled by the exact total, which truncates nothing the
generator would still yield within that many steps. -/
def Gorilla.run_pattern (g : Gorilla) (tokens : List Token) : Gorilla :=
  ((TokenIterator.takeWords (trueTotal tokens) (token_iterator tokens)).map
      (fun w => String.mk w)).foldl Gorilla.mutate_word g

/-! ### A tag-shaped span, and concrete fixtures used by the
counterexamples and witnesses -/

/-- `s` contains a complete HTML-tag-shaped span: a `'<'` later
followed by a `'>'` (exactly the shape the regex `<[^>]*>` can
match somewhere inside `s`). -/
def tagShape (s : List Char) : Prop :=
  ∃ u mid v, s = u ++ '<' :: (mid ++ '>' :: v)

/-- Fixture: a 1:1 mutation rule appending `"1"`. -/
def exMut1 : Mutation := ⟨fun w => [w ++ "1"]⟩

/-- Fixture: a 1:1 mutation rule appending `"2"`. -/
def exMut2 : Mutation := ⟨fun w => [w ++ "2"]⟩

/-- Fixture: first mutation set. -/
def exS1 : MutationSet := ⟨[exMut1]⟩

/-- Fixture: second mutation set. -/
def exS2 : MutationSet := ⟨[exMut2]⟩

/-- Fixture: a gorilla configured with two mutation sets and an output
file. -/
def exGorillaFile : Gorilla :=
  { mutation_sets := [exS1, exS2], file_save := true,
    mutation_counter := 0, word_counter := 0,
    saved := [], printed := [], seeds := [] }

/-- Fixture: like `exGorillaFile` but with different counters and
different (nonempty) traces — only `mutation_sets` and `file_save`
agree with `exGorillaFile`. -/
def exGorillaFile2 : Gorilla :=
  { mutation_sets := [exS1, exS2], file_save := true,
    mutation_counter := 5, word_counter := 7,
    saved := ["old"], printed := ["p"], seeds := ["s"] }

/-- Fixture: the token sequence of the pattern `a%x` for a two-member
class: one literal and one class of cardinality 2. -/
def exToks : List Token := [Token.literal 'a', Token.charClass ['0', '1']]

/-- Fixture: a scraper whose body lookup succeeds and whose `<body>`
element holds the single text node `"a b\nc"` — the behaviour of the
`scraper` crate on the document `<body>a b\nc</body>`. -/
def exScraper : Scraper Unit Unit :=
  { stripScripts := fun _ => (), bodySelector := some (),
    selectBody := fun _ => some (), textOf := fun _ => ["a b\nc".toList] }

/-- Fixture: a scraper whose `<body>` lookup yields nothing. -/
def exScraperNoBody : Scraper Unit Unit :=
  { stripScripts := fun _ => (), bodySelector := some (),
    selectBody := fun _ => none, textOf := fun _ => [] }

/-! ## Lemmas on trimming -/

theorem dropWhile_dropWhile (p : Char → Bool) (l : List Char) :
    (l.dropWhile p).dropWhile p = l.dropWhile p := by
  induction l with
  | nil => rfl
  | cons a l ih =>
    by_cases h : p a
    · simp only [List.dropWhile_cons, h, if_true]
      exact ih
    · simp [List.dropWhile_cons, h]

theorem trimLeft_decomp (l : List Char) : ∃ u, l = u ++ trimLeftChars l :=
  ⟨l.takeWhile isWhitespaceChar,
    (List.takeWhile_append_dropWhile isWhitespaceChar l).symm⟩

theorem trimRight_decomp (l : List Char) : ∃ v, l = trimRightChars l ++ v := by
  refine ⟨(l.reverse.takeWhile isWhitespaceChar).reverse, ?_⟩
  conv_lhs => rw [← List.reverse_reverse l,
    ← List.takeWhile_append_dropWhile (p := isWhitespaceChar) (l := l.reverse),
    List.reverse_append]
  rfl

theorem trim_decomp (l : List Char) : ∃ u v, l = u ++ (trimChars l ++ v) := by
  obtain ⟨u, hu⟩ := trimLeft_decomp l
  obtain ⟨v, hv⟩ := trimRight_decomp (trimLeftChars l)
  refine ⟨u, v, ?_⟩
  conv_lhs => rw [hu, hv]
  rfl

theorem mem_of_mem_trim {x : Char} {l : List Char} (h : x ∈ trimChars l) : x ∈ l := by
  obtain ⟨u, v, hl⟩ := trim_decomp l
  rw [hl]
  simp only [List.mem_append]
  exact Or.inr (Or.inl h)

theorem dropWhile_eq_self_of_append (p : Char → Bool) {z w y : List Char}
    (hy : y.dropWhile p = y) (h : y = z ++ w) : z.dropWhile p = z := by
  cases z with
  | nil => rfl
  | cons a z2 =>
    subst h
    by_cases hp : p a
    · exfalso
      rw [List.cons_append, List.dropWhile_cons, if_pos hp] at hy
      have hle : (List.dropWhile p (z2 ++ w)).length ≤ (z2 ++ w).length :=
        (List.dropWhile_suffix p).length_le
      have hlen := congrArg List.length hy
      simp only [List.length_cons] at hlen
      omega
    · rw [List.dropWhile_cons, if_neg hp]

theorem trimLeft_trimLeft (l : List Char) :
    trimLeftChars (trimLeftChars l) = trimLeftChars l :=
  dropWhile_dropWhile isWhitespaceChar l

theorem trimLeft_of_trimRight {y : List Char} (hy : trimLeftChars y = y) :
    trimLeftChars (trimRightChars y) = trimRightChars y := by
  obtain ⟨v, hv⟩ := trimRight_decomp y
  exact dropWhile_eq_self_of_append isWhitespaceChar hy hv

theorem trimRight_trimRight (l : List Char) :
    trimRightChars (trimRightChars l) = trimRightChars l := by
  unfold trimRightChars
  rw [List.reverse_reverse, dropWhile_dropWhile]

theorem trimChars_trimChars (l : List Char) : trimChars (trimChars l) = trimChars l := by
  unfold trimChars
  rw [trimLeft_of_trimRight (trimLeft_trimLeft l), trimRight_trimRight]

/-! ## Lemmas on `splitOnSpace` -/

theorem splitOnSpace_ne_nil (l : List Char) : splitOnSpace l ≠ [] := by
  induction l with
  | nil => simp [splitOnSpace]
  | cons c rest ih =>
    by_cases h : c = ' '
    · simp [splitOnSpace, h]
    · simp only [splitOnSpace, if_neg h]
      cases hs : splitOnSpace rest with
      | nil => simp
      | cons w ws => simp

theorem mem_splitOnSpace_no_space {l p : List Char} (h : p ∈ splitOnSpace l) :
    ' ' ∉ p := by
  induction l generalizing p with
  | nil =>
    simp only [splitOnSpace, List.mem_singleton] at h
    subst h
    simp
  | cons c rest ih =>
    by_cases hc : c = ' '
    · simp only [splitOnSpace, if_pos hc, List.mem_cons] at h
      rcases h with h | h
      · subst h; simp
      · exact ih h
    · simp only [splitOnSpace, if_neg hc] at h
      cases hs : splitOnSpace rest with
      | nil => exact absurd hs (splitOnSpace_ne_nil rest)
      | cons w ws =>
        rw [hs] at h
        rcases List.mem_cons.mp h with h | h
        · subst h
          intro hmem
          rcases List.mem_cons.mp hmem with h2 | h2
          · exact hc h2.symm
          · have hw : w ∈ splitOnSpace rest := by rw [hs]; exact List.mem_cons_self w ws
            exact ih hw h2
        · have hp : p ∈ splitOnSpace rest := by rw [hs]; exact List.mem_cons_of_mem w h
          exact ih hp

theorem splitOnSpace_head_decomp :
    ∀ {l w : List Char} {ws : List (List Char)},
      splitOnSpace l = w :: ws → ∃ v, l = w ++ v := by
  intro l
  induction l with
  | nil =>
    intro w ws h
    simp only [splitOnSpace] at h
    exact ⟨[], by simp [(List.cons.injEq _ _ _ _ ▸ h).1.symm]⟩
  | cons c rest ih =>
    intro w ws h
    by_cases hc : c = ' '
    · simp only [splitOnSpace, if_pos hc] at h
      have hw : w = [] := ((List.cons.injEq _ _ _ _).mp h).1.symm
      exact ⟨c :: rest, by simp [hw]⟩
    · simp only [splitOnSpace, if_neg hc] at h
      cases hs : splitOnSpace rest with
      | nil => exact absurd hs (splitOnSpace_ne_nil rest)
      | cons w1 ws1 =>
        rw [hs] at h
        have hw : w = c :: w1 := ((List.cons.injEq _ _ _ _).mp h).1.symm
        obtain ⟨v, hv⟩ := ih hs
        exact ⟨v, by rw [hw, hv]; rfl⟩

theorem mem_splitOnSpace_decomp {l p : List Char} (h : p ∈ splitOnSpace l) :
    ∃ u v, l = u ++ (p ++ v) := by
  induction l generalizing p with
  | nil =>
    simp only [splitOnSpace, List.mem_singleton] at h
    exact ⟨[], [], by simp [h]⟩
  | cons c rest ih =>
    by_cases hc : c = ' '
    · simp only [splitOnSpace, if_pos hc, List.mem_cons] at h
      rcases h with h | h
      · exact ⟨[], c :: rest, by simp [h]⟩
      · obtain ⟨u, v, huv⟩ := ih h
        exact ⟨c :: u, v, by rw [huv]; rfl⟩
    · simp only [splitOnSpace, if_neg hc] at h
      cases hs : splitOnSpace rest with
      | nil => exact absurd hs (splitOnSpace_ne_nil rest)
      | cons w1 ws1 =>
        rw [hs] at h
        rcases List.mem_cons.mp h with h | h
        · obtain ⟨v, hv⟩ := splitOnSpace_head_decomp hs
          exact ⟨[], v, by rw [h, hv]; rfl⟩
        · have hp : p ∈ splitOnSpace rest := by rw [hs]; exact List.mem_cons_of_mem w1 h
          obtain ⟨u, v, huv⟩ := ih hp
          exact ⟨c :: u, v, by rw [huv]; rfl⟩

theorem splitOnSpace_eq_single {l : List Char} (h : ' ' ∉ l) : splitOnSpace l = [l] := by
  induction l with
  | nil => rfl
  | cons c rest ih =>
    have hc : ¬ c = ' ' := fun he => h (he ▸ List.mem_cons_self c rest)
    simp only [splitOnSpace, if_neg hc]
    rw [ih (fun hm => h (List.mem_cons_of_mem c hm))]

/-! ## Lemmas on tag-shaped spans and `removeTags` -/

theorem tagShape_of_append {s : List Char} (a b : List Char) (hs : tagShape s) :
    tagShape (a ++ (s ++ b)) := by
  obtain ⟨u, mid, v, rfl⟩ := hs
  exact ⟨a ++ u, mid, v ++ b, by simp⟩

theorem gt_mem_of_tagShape {t : List Char} (h : tagShape t) : '>' ∈ t := by
  obtain ⟨u, mid, v, rfl⟩ := h
  simp

theorem dropThroughGt_eq_none {l : List Char} (h : dropThroughGt l = none) :
    '>' ∉ l := by
  induction l with
  | nil => simp
  | cons c rest ih =>
    simp only [dropThroughGt] at h
    by_cases hc : c = '>'
    · simp [hc] at h
    · simp only [if_neg hc] at h
      intro hm
      rcases List.mem_cons.mp hm with h2 | h2
      · exact hc h2.symm
      · exact ih h h2

theorem removeTagsFuel_no_tagShape :
    ∀ (fuel : Nat) (l : List Char), l.length ≤ fuel →
      ¬ tagShape (removeTagsFuel fuel l) := by
  intro fuel
  induction fuel with
  | zero =>
    intro l hl
    have : l = [] := List.length_eq_zero.mp (Nat.le_zero.mp hl)
    subst this
    intro h
    obtain ⟨u, mid, v, he⟩ := h
    cases u <;> simp [removeTagsFuel] at he
  | succ fuel ih =>
    intro l hl
    cases l with
    | nil =>
      intro h
      obtain ⟨u, mid, v, he⟩ := h
      cases u <;> simp [removeTagsFuel] at he
    | cons c rest =>
      simp only [removeTagsFuel]
      by_cases hc : c = '<'
      · rw [if_pos hc]
        cases hdrop : dropThroughGt rest with
        | some after =>
          have hlen : after.length < rest.length := dropThroughGt_length hdrop
          have : after.length ≤ fuel := by
            simp only [List.length_cons] at hl
            omega
          exact ih after this
        | none =>
          intro h
          have hgt : '>' ∈ c :: rest := gt_mem_of_tagShape h
          rcases List.mem_cons.mp hgt with h2 | h2
          · rw [hc] at h2; exact absurd h2.symm (by decide)
          · exact dropThroughGt_eq_none hdrop h2
      · rw [if_neg hc]
        intro h
        obtain ⟨u, mid, v, he⟩ := h
        cases u with
        | nil =>
          simp only [List.nil_append] at he
          exact hc ((List.cons.injEq _ _ _ _).mp he).1
        | cons a u2 =>
          have h2 : removeTagsFuel fuel rest = u2 ++ '<' :: (mid ++ '>' :: v) :=
            ((List.cons.injEq _ _ _ _).mp he).2
          have hrest : rest.length ≤ fuel := by
            simp only [List.length_cons] at hl
            omega
          exact ih rest hrest ⟨u2, mid, v, h2⟩

theorem removeTags_no_tagShape (l : List Char) : ¬ tagShape (removeTags l) :=
  removeTagsFuel_no_tagShape l.length l (Nat.le_refl _)

/-! ## Lemmas on the `extract_words` folds -/

theorem foldl_pushWord_mem {items ws : List (List Char)} {s : List Char}
    (h : s ∈ items.foldl pushWord ws) :
    s ∈ ws ∨ ∃ w ∈ items, s = trimChars w := by
  induction items generalizing ws with
  | nil => exact Or.inl h
  | cons a items ih =>
    rcases ih h with h2 | ⟨w, hw, hs⟩
    · unfold pushWord at h2
      by_cases hmem : trimChars a ∈ ws
      · rw [if_pos hmem] at h2
        exact Or.inl h2
      · rw [if_neg hmem] at h2
        rcases List.mem_append.mp h2 with h3 | h3
        · exact Or.inl h3
        · exact Or.inr ⟨a, List.mem_cons_self a items, List.mem_singleton.mp h3⟩
    · exact Or.inr ⟨w, List.mem_cons_of_mem a hw, hs⟩

theorem foldl_pushLine_mem {lines ws : List (List Char)} {s : List Char}
    (h : s ∈ lines.foldl pushLine ws) :
    s ∈ ws ∨ ∃ line ∈ lines, trimChars line ≠ [] ∧
      ∃ w ∈ splitOnSpace (trimChars line), s = trimChars w := by
  induction lines generalizing ws with
  | nil => exact Or.inl h
  | cons line lines ih =>
    rcases ih h with h2 | ⟨l2, hl2, hne, w, hw, hs⟩
    · unfold pushLine at h2
      by_cases hq : trimChars line = []
      · rw [if_pos hq] at h2
        exact Or.inl h2
      · rw [if_neg hq] at h2
        rcases foldl_pushWord_mem h2 with h3 | ⟨w, hw, hs⟩
        · exact Or.inl h3
        · exact Or.inr ⟨line, List.mem_cons_self line lines, hq, w, hw, hs⟩
    · exact Or.inr ⟨l2, List.mem_cons_of_mem line hl2, hne, w, hw, hs⟩

theorem foldl_pushWord_nodup {items ws : List (List Char)} (h : ws.Nodup) :
    (items.foldl pushWord ws).Nodup := by
  induction items generalizing ws with
  | nil => exact h
  | cons a items ih =>
    refine ih ?_
    unfold pushWord
    by_cases hmem : trimChars a ∈ ws
    · rw [if_pos hmem]; exact h
    · rw [if_neg hmem]
      rw [List.nodup_append]
      refine ⟨h, List.nodup_singleton _, ?_⟩
      intro x hx hx2
      rw [List.mem_singleton.mp hx2] at hx
      exact hmem hx

theorem foldl_pushLine_nodup {lines ws : List (List Char)} (h : ws.Nodup) :
    (lines.foldl pushLine ws).Nodup := by
  induction lines generalizing ws with
  | nil => exact h
  | cons line lines ih =>
    refine ih ?_
    unfold pushLine
    by_cases hq : trimChars line = []
    · rw [if_pos hq]; exact h
    · rw [if_neg hq]
      exact foldl_pushWord_nodup h

theorem extract_words_mem {F E : Type} {S : Scraper F E} {body s : List Char}
    (h : s ∈ extract_words S body) :
    ∃ line ∈ splitOnSpace (removeTags (just_body_html_content S body)),
      trimChars line ≠ [] ∧ s = trimChars line := by
  unfold extract_words at h
  rcases foldl_pushLine_mem h with h2 | ⟨line, hline, hne, w, hw, hs⟩
  · simp at h2
  · have hnos : ' ' ∉ line := mem_splitOnSpace_no_space hline
    have hnos2 : ' ' ∉ trimChars line := fun hm => hnos (mem_of_mem_trim hm)
    rw [splitOnSpace_eq_single hnos2] at hw
    rw [List.mem_singleton.mp hw] at hs
    rw [trimChars_trimChars] at hs
    exact ⟨line, hline, hne, hs⟩

/-! ## Claims about `extract_words` and `just_body_html_content` -/

/-- C3: for every input page body (and every behaviour of the HTML
collaborator), the list returned by `extract_words` is deduplicated: no
string occurs more than once in the returned vector.  The
`words.contains(&w)` guard of `website_scraper.rs` lines 27–29 makes
the accumulator duplicate-free. -/
theorem extract_words_nodup {F E : Type} (S : Scraper F E) (page_body : List Char) :
    (extract_words S page_body).Nodup := by
  unfold extract_words
  exact foldl_pushLine_nodup List.nodup_nil

/-- C10: every string returned by `extract_words` is non-empty and has
no leading or trailing whitespace (it is a fixed point of `trim`). -/
theorem extract_words_nonempty_trimmed {F E : Type} (S : Scraper F E)
    (page_body s : List Char) (h : s ∈ extract_words S page_body) :
    s ≠ [] ∧ trimChars s = s := by
  obtain ⟨line, _, hne, hs⟩ := extract_words_mem h
  constructor
  · rw [hs]; exact hne
  · rw [hs]; exact trimChars_trimChars line

/-- Witness for C10 at a concrete scraper and page: `"a"` is among the
extracted words, and the theorem yields its non-emptiness and
trimmedness. -/
theorem extract_words_nonempty_trimmed_witness :
    "a".toList ∈ extract_words exScraper ("<body>a b\nc</body>".toList) ∧
      "a".toList ≠ [] ∧ trimChars "a".toList = "a".toList :=
  ⟨by decide,
   extract_words_nonempty_trimmed exScraper ("<body>a b\nc</body>".toList)
     "a".toList (by decide)⟩

/-- C9: when the `<body>` selector fails to parse or no `<body>`
element is found in the script-stripped fragment,
`just_body_html_content` returns its input unchanged (including any
`<head>` and `<script>` content), per the two early returns of
`website_scraper.rs` lines 66–76. -/
theorem just_body_html_content_no_body {F E : Type} (S : Scraper F E)
    (all_html : List Char)
    (h : S.bodySelector = none ∨ S.selectBody (S.stripScripts all_html) = none) :
    just_body_html_content S all_html = all_html := by
  unfold just_body_html_content
  rcases h with h | h
  · rw [h]
  · cases hb : S.bodySelector with
    | none => rfl
    | some u => simp [h]

/-- Witness for C9: a scraper whose body lookup fails returns the
document — head and script content included — unchanged. -/
theorem just_body_html_content_no_body_witness :
    just_body_html_content exScraperNoBody
        ("<head>x</head><script>y</script>".toList) =
      "<head>x</head><script>y</script>".toList :=
  just_body_html_content_no_body exScraperNoBody
    ("<head>x</head><script>y</script>".toList) (Or.inr rfl)

/-- Counterexample to C4 as stated: on the page
`<body>a b\nc</body>` (whose `<body>` text, as produced by the
`scraper` crate, is `"a b\nc"`), `extract_words` returns the string
`"b\nc"`, which contains the whitespace character `'\n'` — the code
splits the page text on `' '` only, not on all whitespace. -/
theorem extract_words_whitespace_counterexample :
    extract_words exScraper ("<body>a b\nc</body>".toList) =
        ["a".toList, "b\nc".toList] ∧
      '\n' ∈ "b\nc".toList ∧ isWhitespaceChar '\n' = true := by
  refine ⟨by decide, by decide, by decide⟩

/-- C4 (amended): every string returned by `extract_words` contains no
space character `' '` (other whitespace such as `'\n'` may remain), and
contains no complete HTML-tag-shaped span `<...>` (the tag regex of
line 16 removes every such span); the removal of `<script>` content and
of markup outside the page text is delegated to the external `scraper`
collaborator. -/
theorem extract_words_no_space_no_tag {F E : Type} (S : Scraper F E)
    (page_body s : List Char) (h : s ∈ extract_words S page_body) :
    ' ' ∉ s ∧ ¬ tagShape s := by
  obtain ⟨line, hline, _, hs⟩ := extract_words_mem h
  have hnos : ' ' ∉ line := mem_splitOnSpace_no_space hline
  constructor
  · rw [hs]
    exact fun hm => hnos (mem_of_mem_trim hm)
  · rw [hs]
    intro htag
    obtain ⟨u0, v0, hdec⟩ := trim_decomp line
    have htagline : tagShape line := by
      rw [hdec]
      exact tagShape_of_append u0 v0 htag
    obtain ⟨u1, v1, hdec1⟩ := mem_splitOnSpace_decomp hline
    have : tagShape (removeTags (just_body_html_content S page_body)) := by
      rw [hdec1]
      exact tagShape_of_append u1 v1 htagline
    exact removeTags_no_tagShape _ this

/-- Witness for C4 (amended) at a concrete scraper and page: the
returned string `"b\nc"` has no space and no tag-shaped span. -/
theorem extract_words_no_space_no_tag_witness :
    "b\nc".toList ∈ extract_words exScraper ("<body>a b\nc</body>".toList) ∧
      (' ' ∉ "b\nc".toList ∧ ¬ tagShape "b\nc".toList) :=
  ⟨by decide,
   extract_words_no_space_no_tag exScraper ("<body>a b\nc</body>".toList)
     "b\nc".toList (by decide)⟩

/-! ## Lemmas characterising `mutate_word` -/

theorem bumpN_add (mc a b : Nat) : bumpN mc (a + b) = bumpN (bumpN mc a) b := by
  induction a generalizing mc with
  | zero => simp [bumpN]
  | succ a ih =>
    calc bumpN mc (a + 1 + b) = bumpN mc ((a + b) + 1) := by
          rw [Nat.add_right_comm]
      _ = bumpN ((mc + 1) % U32MOD) (a + b) := rfl
      _ = bumpN (bumpN ((mc + 1) % U32MOD) a) b := ih ((mc + 1) % U32MOD)
      _ = bumpN (bumpN mc (a + 1)) b := rfl

theorem innerEmit_foldl (l : List String) :
    ∀ h : Gorilla, l.foldl innerEmit h =
      { h with printed := h.printed ++ (if h.file_save then [] else l),
               mutation_counter := bumpN h.mutation_counter l.length } := by
  induction l with
  | nil =>
    intro h
    cases h with | mk sets fs mc wc sv pr sd =>
    cases fs <;> simp [bumpN]
  | cons s l ih =>
    intro h
    rw [List.foldl_cons, ih]
    cases h with | mk sets fs mc wc sv pr sd =>
    cases fs <;> simp [innerEmit, bumpN, List.append_assoc]

theorem foldl_setStep (word : String) :
    ∀ (sets : List MutationSet) (g : Gorilla) (r : MutationResult),
      sets.foldl (setStep word) (g, r) =
        ({ g with
            saved := g.saved ++
              (if g.file_save
               then (consumed r.mutated_words sets word).flatten else []),
            printed := g.printed ++
              (if g.file_save
               then [] else (consumed r.mutated_words sets word).flatten),
            mutation_counter := bumpN g.mutation_counter
              (consumed r.mutated_words sets word).flatten.length },
         { original_word := r.original_word,
           mutated_words := r.mutated_words ++
             sets.flatMap (fun ms => ms.pipeline_output word) }) := by
  intro sets
  induction sets with
  | nil =>
    intro g r
    cases g with | mk sets0 fs mc wc sv pr sd =>
    cases r with | mk ow mw =>
    cases fs <;> simp [consumed, bumpN]
  | cons ms rest ih =>
    intro g r
    rw [List.foldl_cons]
    have hstep : setStep word (g, r) ms =
        ({ g with
            saved := g.saved ++
              (if g.file_save
               then r.mutated_words ++ ms.pipeline_output word else []),
            printed := g.printed ++
              (if g.file_save
               then [] else r.mutated_words ++ ms.pipeline_output word),
            mutation_counter := bumpN g.mutation_counter
              (r.mutated_words ++ ms.pipeline_output word).length },
         { original_word := r.original_word,
           mutated_words := r.mutated_words ++ ms.pipeline_output word }) := by
      cases g with | mk sets0 fs mc wc sv pr sd =>
      cases r with | mk ow mw =>
      cases fs <;>
        simp [setStep, MutationSet.perform, innerEmit_foldl, ← bumpN_add]
    rw [hstep, ih]
    cases g with | mk sets0 fs mc wc sv pr sd =>
    cases r with | mk ow mw =>
    cases fs <;>
      simp [consumed, bumpN_add, List.append_assoc]

theorem mutate_word_spec (g : Gorilla) (word : String) :
    g.mutate_word word = { g with
      word_counter := (g.word_counter + 1) % U32MOD,
      seeds := g.seeds ++ [word],
      saved := g.saved ++
        (if g.file_save then outAll g.mutation_sets word else []),
      printed := g.printed ++
        (if g.file_save then [] else outAll g.mutation_sets word),
      mutation_counter := bumpN g.mutation_counter
        (outAll g.mutation_sets word).length } := by
  unfold Gorilla.mutate_word outAll
  simp only [foldl_setStep]

theorem foldl_mutate_word_spec :
    ∀ (ws : List String) (g : Gorilla),
      ws.foldl Gorilla.mutate_word g = { g with
        word_counter := bumpN g.word_counter ws.length,
        mutation_counter := bumpN g.mutation_counter
          (ws.map (fun w => (outAll g.mutation_sets w).length)).sum,
        seeds := g.seeds ++ ws,
        saved := g.saved ++
          (if g.file_save
           then ws.flatMap (fun w => outAll g.mutation_sets w) else []),
        printed := g.printed ++
          (if g.file_save
           then [] else ws.flatMap (fun w => outAll g.mutation_sets w)) } := by
  intro ws
  induction ws with
  | nil =>
    intro g
    cases g with | mk sets0 fs mc wc sv pr sd =>
    cases fs <;> simp [bumpN]
  | cons w ws ih =>
    intro g
    rw [List.foldl_cons, mutate_word_spec, ih]
    cases g with | mk sets0 fs mc wc sv pr sd =>
    have hb : ∀ (x n : Nat), bumpN x (n + 1) = bumpN ((x + 1) % U32MOD) n :=
      fun x n => rfl
    cases fs <;>
      simp [bumpN_add, List.append_assoc, hb, Nat.add_comm]

theorem consumed_eq (word : String) :
    ∀ (sets : List MutationSet) (acc : List String),
      consumed acc sets word =
        (List.range sets.length).map
          (fun k => acc ++
            (sets.take (k + 1)).flatMap (fun ms => ms.pipeline_output word)) := by
  intro sets
  induction sets with
  | nil => intro acc; simp [consumed]
  | cons ms rest ih =>
    intro acc
    simp only [consumed]
    rw [ih, List.length_cons, List.range_succ_eq_map, List.map_cons, List.map_map]
    congr 1
    · simp
    · apply List.map_congr_left
      intro k _
      simp [List.append_assoc]

theorem flatMap_mutate_word_results (sets : List MutationSet) (word : String) :
    (mutate_word_results sets word).flatMap MutationResult.mutated_words =
      outAll sets word := by
  unfold mutate_word_results outAll
  induction consumed [] sets word with
  | nil => rfl
  | cons ws ll ih => simp only [List.map_cons, List.flatMap_cons, List.flatten_cons, ih]

/-! ## Claims about `mutate_word`, `save_to_file` and the seed loops -/

/-- Counterexample to C1 as stated: with two configured mutation sets
(`exS1` appends `"1"`, `exS2` appends `"2"`) the result consumed for
the second set is `⟨"w", ["w1", "w2"]⟩`, which is not that set's own
output `["w2"]`: the single per-word `MutationResult` accumulates the
outputs of previously applied sets. -/
theorem mutate_word_fresh_result_counterexample :
    (mutate_word_results [exS1, exS2] "w").map MutationResult.mutated_words =
        [["w1"], ["w1", "w2"]] ∧
      [exS1, exS2].map (fun ms => ms.pipeline_output "w") = [["w1"], ["w2"]] ∧
      ¬ (mutate_word_results [exS1, exS2] "w").map MutationResult.mutated_words =
          [exS1, exS2].map (fun ms => ms.pipeline_output "w") :=
  ⟨by decide, by decide, by decide⟩

/-- C1 (amended): `mutate_word` creates one `MutationResult` per seed
word (not per `(word, MutationSet)` pair) and reuses it across all
configured MutationSets; the k-th `perform` call appends the k-th set's
pipeline output, so the result consumed after set k holds the
concatenated outputs of sets 1..k+1 (0-indexed), and what is saved for
the word is the concatenation of all these accumulated snapshots. -/
theorem mutate_word_accumulates (sets : List MutationSet) (word : String)
    (k : Nat) (hk : k < sets.length) :
    (mutate_word_results sets word)[k]? =
        some { original_word := word,
               mutated_words :=
                 (sets.take (k + 1)).flatMap (fun ms => ms.pipeline_output word) } ∧
      ∀ g : Gorilla, g.mutation_sets = sets → g.file_save = true →
        (g.mutate_word word).saved =
          g.saved ++
            (mutate_word_results sets word).flatMap MutationResult.mutated_words := by
  constructor
  · unfold mutate_word_results
    rw [consumed_eq, List.map_map, List.getElem?_map, List.getElem?_range hk]
    simp
  · intro g hsets hfs
    rw [mutate_word_spec, hsets, hfs, if_pos rfl, flatMap_mutate_word_results]

/-- Witness for C1 (amended) at the concrete two-set gorilla. -/
theorem mutate_word_accumulates_witness :
    (mutate_word_results [exS1, exS2] "w")[1]? =
        some { original_word := "w", mutated_words := ["w1", "w2"] } ∧
      (exGorillaFile.mutate_word "w").saved =
        [] ++ (mutate_word_results [exS1, exS2] "w").flatMap
          MutationResult.mutated_words := by
  have h := mutate_word_accumulates [exS1, exS2] "w" 1 (by decide)
  exact ⟨h.1.trans (by decide), h.2 exGorillaFile rfl rfl⟩

/-- Counterexample to C2 as stated: with two configured mutation sets,
the string `"w1"` — produced by the first set's pipeline for seed `"w"`
— is written to the output file twice (once after each `perform` call,
because the shared result still holds it), so it is not written exactly
once. -/
theorem save_exactly_once_counterexample :
    (exGorillaFile.mutate_word "w").saved = ["w1", "w1", "w2"] ∧
      "w1" ∈ exS1.pipeline_output "w" ∧
      ¬ (exGorillaFile.mutate_word "w").saved.count "w1" = 1 :=
  ⟨by decide, by decide, by decide⟩

/-- C2 (amended): `save_to_file` appends each string of
`mutated_words` as exactly one line, in order, to the append-only sink,
and a failing write makes the whole call fail with that error (no
retry, no swallowing); when a single MutationSet is configured, the
strings saved for a seed word are exactly that set's pipeline output,
each occurrence written once.  (With k ≥ 2 sets the shared accumulating
result makes earlier sets' outputs be rewritten by later calls.) -/
theorem save_to_file_appends_lines :
    (∀ (r : MutationResult) (s0 : List String),
       r.save_to_file lineWriter s0 = .ok (s0 ++ r.mutated_words)) ∧
      (∀ (σ ε : Type) (wr : σ → String → Except ε σ) (ow : String)
         (pre post : List String) (w : String) (s s1 : σ) (e : ε),
         (MutationResult.mk ow pre).save_to_file wr s = .ok s1 →
         wr s1 w = .error e →
         (MutationResult.mk ow (pre ++ w :: post)).save_to_file wr s = .error e) ∧
      (∀ (g : Gorilla) (ms : MutationSet) (word : String),
         g.mutation_sets = [ms] → g.file_save = true →
         (g.mutate_word word).saved = g.saved ++ ms.pipeline_output word) := by
  refine ⟨?_, ?_, ?_⟩
  · intro r s0
    unfold MutationResult.save_to_file
    induction r.mutated_words generalizing s0 with
    | nil =>
      simp only [List.foldlM_nil, List.append_nil]
      rfl
    | cons w ws ih =>
      rw [List.foldlM_cons]
      show (lineWriter s0 w >>= fun s2 => List.foldlM lineWriter s2 ws) = _
      rw [show lineWriter s0 w = .ok (s0 ++ [w]) from rfl]
      show List.foldlM lineWriter (s0 ++ [w]) ws = _
      rw [ih]
      simp
  · intro σ ε wr ow pre post w s s1 e hok herr
    unfold MutationResult.save_to_file at hok ⊢
    simp only at hok ⊢
    induction pre generalizing s with
    | nil =>
      simp only [List.foldlM_nil] at hok
      have hs : s1 = s := by
        injection hok with h2
        exact h2.symm
      subst hs
      rw [List.nil_append, List.foldlM_cons, herr]
      rfl
    | cons p ps ih =>
      rw [List.foldlM_cons] at hok
      cases hwp : wr s p with
      | error e2 =>
        rw [hwp] at hok
        exact absurd hok (by simp [Bind.bind, Except.bind])
      | ok s2 =>
        rw [hwp] at hok
        have hok2 : List.foldlM wr s2 ps = .ok s1 := by
          simpa [Bind.bind, Except.bind] using hok
        rw [List.cons_append, List.foldlM_cons, hwp]
        show Except.bind (Except.ok s2) (fun s3 => List.foldlM wr s3 (ps ++ w :: post)) = _
        rw [show Except.bind (Except.ok s2)
              (fun s3 => List.foldlM wr s3 (ps ++ w :: post)) =
            List.foldlM wr s2 (ps ++ w :: post) from rfl]
        exact ih s2 hok2
  · intro g ms word hsets hfs
    rw [mutate_word_spec, hsets, hfs, if_pos rfl]
    have : outAll [ms] word = ms.pipeline_output word := by
      simp [outAll, consumed]
    rw [this]

/-- Witness for C2 (amended): all three parts at concrete inputs — a
two-line result appended to a one-line sink; a writer failing on
`"BAD"` after a successful first write propagates its error; the
single-set gorilla saves exactly the pipeline output. -/
theorem save_to_file_appends_lines_witness :
    MutationResult.save_to_file lineWriter ⟨"w", ["a", "b"]⟩ ["old"] =
        .ok ["old", "a", "b"] ∧
      MutationResult.save_to_file
          (fun (s : List String) (w : String) =>
            if w = "BAD" then (.error 0 : Except Nat (List String))
            else .ok (s ++ [w]))
          ⟨"w", ["a", "BAD", "c"]⟩ [] = .error 0 ∧
      (Gorilla.mutate_word
          { mutation_sets := [exS1], file_save := true, mutation_counter := 0,
            word_counter := 0, saved := [], printed := [], seeds := [] }
          "w").saved = [] ++ exS1.pipeline_output "w" := by
  refine ⟨save_to_file_appends_lines.1 ⟨"w", ["a", "b"]⟩ ["old"], ?_, ?_⟩
  · have h := save_to_file_appends_lines.2.1 (List String) Nat
      (fun s w => if w = "BAD" then .error 0 else .ok (s ++ [w]))
      "w" ["a"] ["c"] "BAD" [] ["a"] 0 rfl rfl
    exact h
  · exact save_to_file_appends_lines.2.2
      { mutation_sets := [exS1], file_save := true, mutation_counter := 0,
        word_counter := 0, saved := [], printed := [], seeds := [] }
      exS1 "w" rfl rfl

/-- C5: when seed words come from a file, every line is fed to the
mutation pipeline one at a time, in file order, exactly once per
occurrence (the consumed-seed trace equals the line list, duplicates
included), and with a single configured MutationSet the file sink
receives each line's pipeline output in the same order. -/
theorem process_file_lines_in_order (g : Gorilla) (lines : List String) :
    (g.process_file_lines lines).seeds = g.seeds ++ lines ∧
      (∀ ms : MutationSet, g.mutation_sets = [ms] → g.file_save = true →
        (g.process_file_lines lines).saved =
          g.saved ++ lines.flatMap (fun w => ms.pipeline_output w)) := by
  unfold Gorilla.process_file_lines
  rw [foldl_mutate_word_spec]
  constructor
  · rfl
  · intro ms hsets hfs
    rw [hsets, hfs, if_pos rfl]
    have : ∀ w, outAll [ms] w = ms.pipeline_output w := by
      intro w
      simp [outAll, consumed]
    simp only [this]

/-- Witness for C5 on a file with a duplicated line: both occurrences
are processed, in order. -/
theorem process_file_lines_in_order_witness :
    (Gorilla.process_file_lines
        { mutation_sets := [exS1], file_save := true, mutation_counter := 0,
          word_counter := 0, saved := [], printed := [], seeds := [] }
        ["a", "b", "a"]).seeds = [] ++ ["a", "b", "a"] ∧
      (Gorilla.process_file_lines
        { mutation_sets := [exS1], file_save := true, mutation_counter := 0,
          word_counter := 0, saved := [], printed := [], seeds := [] }
        ["a", "b", "a"]).saved = [] ++ ["a1", "b1", "a1"] := by
  have h := process_file_lines_in_order
    { mutation_sets := [exS1], file_save := true, mutation_counter := 0,
      word_counter := 0, saved := [], printed := [], seeds := [] }
    ["a", "b", "a"]
  exact ⟨h.1, (h.2 exS1 rfl rfl).trans (by decide)⟩

/-! ## Lemmas on the generator, and the generator claims -/

theorem classSizes_literals (p : List Char) : classSizes (p.map Token.literal) = [] := by
  induction p with
  | nil => rfl
  | cons c rest ih => simpa [classSizes] using ih

theorem renderTokens_literals (p : List Char) :
    renderTokens (p.map Token.literal) [] = p := by
  induction p with
  | nil => rfl
  | cons c rest ih => simp [renderTokens, ih]

theorem takeWords_done (g : TokenIterator) (h : g.done = true) :
    ∀ n, TokenIterator.takeWords n g = [] := by
  intro n
  cases n with
  | zero => rfl
  | succ m => simp [TokenIterator.takeWords, TokenIterator.next, h]

/-- C6: a pattern with no class escapes (no `'%'` at all) tokenizes to
all-literal tokens, `calculate_total()` returns 1, and any iteration of
at least one step over a fresh generator yields exactly the single word
equal to the original pattern, then exhaustion. -/
theorem literal_pattern_single_output (p : List Char) (h : '%' ∉ p) :
    tokenize_format_string p = .ok (p.map Token.literal) ∧
      (token_iterator (p.map Token.literal)).calculate_total = 1 ∧
      ∀ n, 1 ≤ n →
        TokenIterator.takeWords n (token_iterator (p.map Token.literal)) = [p] := by
  refine ⟨?_, ?_, ?_⟩
  · induction p with
    | nil => rfl
    | cons c rest ih =>
      have hc : ¬ c = '%' := fun he => h (he ▸ List.mem_cons_self c rest)
      have hrest : '%' ∉ rest := fun hm => h (List.mem_cons_of_mem c hm)
      conv_lhs => rw [tokenize_format_string.eq_def]
      simp only [if_neg hc, ih hrest, List.map_cons]
      rfl
  · unfold TokenIterator.calculate_total
    show (p.map Token.literal).foldl totalStep 1 = 1
    clear h
    induction p with
    | nil => rfl
    | cons c rest ih => simpa [totalStep] using ih
  · intro n hn
    cases n with
    | zero => omega
    | succ m =>
      have hnext : (token_iterator (p.map Token.literal)).next =
          some (p, { token_iterator (p.map Token.literal) with done := true }) := by
        unfold TokenIterator.next token_iterator
        simp [classSizes_literals, renderTokens_literals, advanceCursors]
      simp only [TokenIterator.takeWords, hnext]
      rw [takeWords_done _ rfl m]

/-- Witness for C6 on the pattern `ab`. -/
theorem literal_pattern_single_output_witness :
    tokenize_format_string ['a', 'b'] =
        .ok [Token.literal 'a', Token.literal 'b'] ∧
      (token_iterator [Token.literal 'a', Token.literal 'b']).calculate_total = 1 ∧
      TokenIterator.takeWords 3
          (token_iterator [Token.literal 'a', Token.literal 'b']) = [['a', 'b']] := by
  have h := literal_pattern_single_output ['a', 'b'] (by decide)
  exact ⟨h.1, h.2.1, h.2.2 3 (by decide)⟩

theorem min_mul_min (x y M : Nat) : min (min x M * y) M = min (x * y) M := by
  rcases Nat.le_total x M with hx | hx
  · rw [Nat.min_eq_left hx]
  · rw [Nat.min_eq_right hx]
    cases y with
    | zero => simp
    | succ k =>
      have hk : 0 < k + 1 := Nat.succ_pos k
      have h1 : M ≤ M * (k + 1) := Nat.le_mul_of_pos_right M hk
      have h2 : M ≤ x * (k + 1) :=
        le_trans hx (Nat.le_mul_of_pos_right x hk)
      rw [Nat.min_eq_right h1, Nat.min_eq_right h2]

theorem satFold_eq (toks : List Token) :
    ∀ a b : Nat, b = min a U64MAX →
      toks.foldl totalStep b = min (toks.foldl trueStep a) U64MAX := by
  induction toks with
  | nil => intro a b hb; simpa using hb
  | cons t rest ih =>
    intro a b hb
    cases t with
    | literal c =>
      simp only [List.foldl_cons, totalStep, trueStep]
      exact ih a b hb
    | charClass cs =>
      simp only [List.foldl_cons, totalStep, trueStep]
      apply ih
      rw [hb]
      unfold satMul
      exact min_mul_min a cs.length U64MAX

/-- C7: `calculate_total()` is exactly the true product of the class
cardinalities clamped to the largest `u64` value (saturating, never
wrapping); in particular, whenever the true product exceeds `2^64` the
result is the saturated maximum. -/
theorem calculate_total_saturates (tokens : List Token) :
    (token_iterator tokens).calculate_total = min (trueTotal tokens) U64MAX ∧
      (2 ^ 64 < trueTotal tokens →
        (token_iterator tokens).calculate_total = U64MAX) := by
  have hmin : (token_iterator tokens).calculate_total =
      min (trueTotal tokens) U64MAX := by
    unfold TokenIterator.calculate_total trueTotal
    exact satFold_eq tokens 1 1 (by unfold U64MAX; omega)
  refine ⟨hmin, fun hbig => ?_⟩
  rw [hmin]
  have : U64MAX ≤ trueTotal tokens := by
    unfold U64MAX at *
    omega
  exact Nat.min_eq_right this

/-- Witness for C7 on fourteen lowercase classes: the true product
`26^14` exceeds `2^64` and the computed total is the saturated
maximum. -/
theorem calculate_total_saturates_witness :
    2 ^ 64 < trueTotal (List.replicate 14 (Token.charClass lowercaseChars)) ∧
      (token_iterator
          (List.replicate 14 (Token.charClass lowercaseChars))).calculate_total =
        U64MAX := by
  have h := calculate_total_saturates (List.replicate 14 (Token.charClass lowercaseChars))
  exact ⟨by decide, h.2 (by decide)⟩

/-- C8: the core is deterministic.  Two fresh generators constructed
over identical token sequences yield identical word sequences, and two
pattern runs over gorillas that agree on the configuration
(`mutation_sets`, `file_save`) append byte-identical output sequences
to the file sink, to stdout and to the seed trace, whatever their
counters and earlier traces were — no randomness or time dependence
affects the generated words. -/
theorem run_pattern_deterministic (tokens : List Token) (g1 g2 : Gorilla)
    (hsets : g1.mutation_sets = g2.mutation_sets)
    (hfs : g1.file_save = g2.file_save) :
    (∀ h1 h2 : TokenIterator, h1 = token_iterator tokens →
        h2 = token_iterator tokens →
        ∀ n, TokenIterator.takeWords n h1 = TokenIterator.takeWords n h2) ∧
      (g1.run_pattern tokens).saved.drop g1.saved.length =
        (g2.run_pattern tokens).saved.drop g2.saved.length ∧
      (g1.run_pattern tokens).printed.drop g1.printed.length =
        (g2.run_pattern tokens).printed.drop g2.printed.length ∧
      (g1.run_pattern tokens).seeds.drop g1.seeds.length =
        (g2.run_pattern tokens).seeds.drop g2.seeds.length := by
  refine ⟨fun h1 h2 e1 e2 n => by rw [e1, e2], ?_, ?_, ?_⟩ <;>
  · unfold Gorilla.run_pattern
    rw [foldl_mutate_word_spec, foldl_mutate_word_spec]
    simp [List.drop_left, hsets, hfs]

/-- Witness for C8: two gorillas differing in counters and earlier
traces but agreeing on configuration append the same words for the
pattern `a[01]`. -/
theorem run_pattern_deterministic_witness :
    (exGorillaFile2.run_pattern exToks).saved.drop 1 =
        (exGorillaFile.run_pattern exToks).saved.drop 0 ∧
      (exGorillaFile.run_pattern exToks).saved.drop 0 =
        ["a01", "a01", "a02", "a11", "a11", "a12"] := by
  have h := run_pattern_deterministic exToks exGorillaFile2 exGorillaFile rfl rfl
  exact ⟨h.2.1, by decide⟩

end Gorilla
